import Mathlib

/-!
Verification of the chunk-orchestration core of `ocr_pipeline`.

The Python source is shallowly embedded: the filesystem directory a stage
writes into is a map `String → Option String` from file name to content,
the LLM transform is an abstract `String → Except String String`
(`.error` models a raised exception), and each stage function is a pure
Lean function mirroring the corresponding Python function line by line.
-/

namespace OcrPipeline

/-- An output directory: file name to file content, `none` = no such file. -/
def Fs : Type := String → Option String

/-- The empty output directory. -/
def emptyFs : Fs := fun _ => none

/-- Writing one file into a directory. -/
def fsWrite (fs : Fs) (name content : String) : Fs :=
  fun m => if m = name then some content else fs m

/-- Per-unit outcome of a stage, as returned by `clean_chunk` /
`translate_chunk` / `rewrite_chunk_for_audio`: `("skip" | "cleaned" | "error", msg)`. -/
inductive ChunkStatus : Type where
  | skip : ChunkStatus
  | cleaned : ChunkStatus
  | failed : String → ChunkStatus
deriving DecidableEq, Repr

/-- `ChunkStatus.failed` recogniser. -/
def ChunkStatus.isFailed : ChunkStatus → Bool
  | .failed _ => true
  | _ => false

/-- Embeds `clean_chunk` from `src/clean.py` (and, with `ow = false`, the
identical skip/try/write/except structure of `translate_chunk` and
`rewrite_chunk_for_audio` in `src/transform.py`): if the output file exists
and overwrite is off, report skip; otherwise run the transform, writing the
result on success and reporting the exception text on failure, with no write. -/
def cleanChunkStep (fs : Fs) (t : String → Except String String) (ow : Bool)
    (name content : String) : Fs × ChunkStatus :=
  if (fs name).isSome && !ow then (fs, .skip)
  else
    match t content with
    | .ok c => (fsWrite fs name c, .cleaned)
    | .error e => (fs, .failed e)

/-- Embeds `clean_chunks` from `src/clean.py` (and `translate_chunks`,
`rewrite_for_audio_chunks`): the sorted input units are each submitted to
`clean_chunk`; workers write to pairwise distinct output paths, so the
thread pool is modelled by processing units in input order, collecting each
unit's reported status. -/
def runStage (fs : Fs) (t : String → Except String String) (ow : Bool) :
    List (String × String) → Fs × List (String × ChunkStatus)
  | [] => (fs, [])
  | (name, content) :: rest =>
    let step := cleanChunkStep fs t ow name content
    let tail := runStage step.1 t ow rest
    (tail.1, (name, step.2) :: tail.2)

/-- Python `\s` on ASCII: the whitespace characters recognised by `str.strip`,
`str.split`, `splitlines` and the `\s` regex class. -/
def isPyWs (c : Char) : Bool :=
  c = ' ' || c = '\t' || c = '\n' || c = '\r' || c = '\x0b' || c = '\x0c'

/-- Python `str.lstrip` on a character list. -/
def lstripL (l : List Char) : List Char := l.dropWhile isPyWs

/-- Python `str.rstrip` on a character list. -/
def rstripL (l : List Char) : List Char := (l.reverse.dropWhile isPyWs).reverse

/-- Python `str.strip` on a character list. -/
def stripL (l : List Char) : List Char := rstripL (lstripL l)

/-- Python `str.lower` on a character list (ASCII case mapping). -/
def lowerL (l : List Char) : List Char := l.map Char.toLower

/-- Python `str.strip` on strings. -/
def pyStrip (s : String) : String := ⟨stripL s.data⟩

/-- Python `str.lower` on strings. -/
def pyLower (s : String) : String := ⟨lowerL s.data⟩

/-- Python slice `s[:n]` (by code points). -/
def pyTake (n : Nat) (s : String) : String := ⟨s.data.take n⟩

/-- The label set accepted by `classify_chunk` in `src/classify.py`. -/
def allowedLabels : List String := ["body", "toc", "bibliography", "index"]

/-- Embeds `classify_with_gpt` from `src/classify.py`: call the GPT model on
the first 2000 characters and normalise the response with
`response.strip().lower()`; an exception from the call propagates. -/
def classifyWithGpt (gpt : String → Except String String) (text : String) :
    Except String String :=
  (gpt (pyTake 2000 text)).map (fun r => pyLower (pyStrip r))

/-- Embeds `classify_chunk` from `src/classify.py`: read the first 2000
characters, classify them, replace a label outside the allowed set — or any
exception from the classifier — by "body", and write the (truncated) text
into the label subdirectory. Returns (label, written content). -/
def classifyChunk (gpt : String → Except String String) (content : String) :
    String × String :=
  let text := pyTake 2000 content
  let label :=
    match classifyWithGpt gpt text with
    | .ok l => if l ∈ allowedLabels then l else "body"
    | .error _ => "body"
  (label, text)

/-- Embeds `classify_chunks` from `src/classify.py`: each input unit is
classified independently; the result lists, per unit name, the label
subdirectory written to and the content written. -/
def classifyChunks (gpt : String → Except String String)
    (units : List (String × String)) : List (String × String × String) :=
  units.map (fun u => (u.1, classifyChunk gpt u.2))

/-- Line-break normalisation: `\r\n` and a lone `\r` both become `\n`, so the
splitter below only has to treat the single break character `\n`. -/
def normNl : List Char → List Char
  | [] => []
  | [c] => if c = '\r' then ['\n'] else [c]
  | c :: d :: rest =>
    if c = '\r' then
      if d = '\n' then '\n' :: normNl rest
      else '\n' :: normNl (d :: rest)
    else c :: normNl (d :: rest)

/-- Python `str.splitlines` scanner on `\n`-normalised text: lines split at
`\n`, with no trailing empty line for a trailing line break. -/
def splitlinesGo (cur : List Char) : List Char → List (List Char)
  | [] => [cur]
  | c :: rest =>
    if c = '\n' then cur :: (if rest.isEmpty then [] else splitlinesGo [] rest)
    else splitlinesGo (cur ++ [c]) rest

/-- Python `str.splitlines` (restricted to the `\n`, `\r\n`, `\r` breaks that
occur in this pipeline's data). -/
def pySplitlines (s : String) : List String :=
  if s.data.isEmpty then [] else (splitlinesGo [] (normNl s.data)).map (fun l => ⟨l⟩)

/-- The heading recogniser of `remove_redundant_headers` in `src/combine.py`:
`re.match(r'^(#+)\s+(.*)', line)`, returning the normalised
(`.strip().lower()`) title when the line is a heading. -/
def headingTitle (line : String) : Option String :=
  let l := line.data
  let hashes := l.takeWhile (fun c => c = '#')
  let rest := l.dropWhile (fun c => c = '#')
  if hashes.isEmpty then none
  else if (rest.takeWhile isPyWs).isEmpty then none
  else some (pyLower (pyStrip ⟨rest.dropWhile isPyWs⟩))

/-- Inner loop of `remove_redundant_headers`: process one page's lines with
the running seen-set of normalised heading titles; returns the kept lines and
the updated seen-set. -/
def pageLinesGo (seen : List String) : List String → List String × List String
  | [] => ([], seen)
  | line :: rest =>
    match headingTitle line with
    | some t =>
      if t ∈ seen then pageLinesGo seen rest
      else
        let r := pageLinesGo (t :: seen) rest
        (line :: r.1, r.2)
    | none =>
      let r := pageLinesGo seen rest
      (line :: r.1, r.2)

/-- Outer loop of `remove_redundant_headers`: pages in order, one blank line
appended after each page's kept lines, seen-set threaded across pages. -/
def pagesGo (seen : List String) : List String → List String
  | [] => []
  | page :: rest =>
    let r := pageLinesGo seen (pySplitlines page)
    r.1 ++ [""] ++ pagesGo r.2 rest

/-- Python `'\n'.join`. -/
def joinNL : List String → String
  | [] => ""
  | [l] => l
  | l :: rest => l ++ "\n" ++ joinNL rest

/-- Embeds `remove_redundant_headers` from `src/combine.py`. -/
def removeRedundantHeaders (pages : List String) : String :=
  joinNL (pagesGo [] pages)

/-- Whether `pat` is an initial run of `s` (character-wise, case sensitive). -/
def leadsWith : List Char → List Char → Bool
  | [], _ => true
  | _ :: _, [] => false
  | p :: ps, c :: cs => p = c && leadsWith ps cs

/-- Python `pat in s` substring test on character lists. -/
def hasSub (pat : List Char) : List Char → Bool
  | [] => pat.isEmpty
  | c :: cs => leadsWith pat (c :: cs) || hasSub pat cs

/-- Python `pat in s` substring test on strings. -/
def containsStr (pat s : String) : Bool := hasSub pat.data s.data

/-- Code-point lexicographic order on ids, as Python `sorted` uses. -/
def listCharLe : List Char → List Char → Bool
  | [], _ => true
  | _ :: _, [] => false
  | a :: as, b :: bs =>
    if a = b then listCharLe as bs else decide (a.toNat < b.toNat)

/-- Insert one named unit into an id-sorted list. -/
def insertById (x : String × String) : List (String × String) → List (String × String)
  | [] => [x]
  | y :: ys => if listCharLe x.1.data y.1.data then x :: y :: ys else y :: insertById x ys

/-- `sorted(input_dir.glob("*.txt"))`: the directory listing in lexicographic
id order. -/
def sortById : List (String × String) → List (String × String)
  | [] => []
  | x :: xs => insertById x (sortById xs)

/-- Embeds `combine_all` from `src/combine.py` on in-memory directories
(lists of (id, content)): directories in the given order, ids sorted within
each directory, pages containing the literal `--- EMPTY ---` marker skipped,
then the header-dedup pass over the remaining pages. -/
def combineAll (dirs : List (List (String × String))) : String :=
  removeRedundantHeaders (dirs.flatMap (fun d =>
    ((sortById d).map Prod.snd).filter (fun t => !containsStr "--- EMPTY ---" t)))

/-- The page texts flattened to one line sequence, a blank line after each
page, as the dedup pass of the Combiner consumes them. -/
def flatLines (pages : List String) : List String :=
  pages.flatMap (fun p => pySplitlines p ++ [""])

/-- Seen-set dedup of a flat line sequence (the per-page loops of
`remove_redundant_headers` fused into one). -/
def flatGo (seen : List String) : List String → List String
  | [] => []
  | line :: rest =>
    match headingTitle line with
    | some t => if t ∈ seen then flatGo seen rest else line :: flatGo (t :: seen) rest
    | none => line :: flatGo seen rest

/-- Modelled from the spec's words, for comparison with the code: a line is
dropped if and only if it is a heading line whose normalised title equals the
normalised title of some earlier heading line; all other lines are kept
verbatim. `prev` is the list of lines already processed. -/
def keptSpecGo (prev : List String) : List String → List String
  | [] => []
  | line :: rest =>
    match headingTitle line with
    | some t =>
      if t ∈ prev.filterMap headingTitle then keptSpecGo (prev ++ [line]) rest
      else line :: keptSpecGo (prev ++ [line]) rest
    | none => line :: keptSpecGo (prev ++ [line]) rest

/-- The spec-worded description of the Combiner's kept lines. -/
def keptLinesSpec (pages : List String) : List String :=
  keptSpecGo [] (flatLines pages)

/-- A heading line with `n` hash marks and title text `t`. -/
def mkHeadingLine (n : Nat) (t : String) : String :=
  ⟨List.replicate n '#' ++ ' ' :: t.data⟩

/-- A single-line text: contains no line break characters. -/
def lineSafe (s : String) : Bool :=
  s.data.all (fun c => !(c = '\n') && !(c = '\r'))

/-- The literal page-break marker inside `DEFAULT_PAGE_BREAK_PATTERN`
(`src/utils.py`): the regex is `\s*--- PAGE BREAK ---\s*`. -/
def markerChars : List Char := "--- PAGE BREAK ---".data

/-- Case-insensitive initial-run test (`re.IGNORECASE` matching of the
literal part of the pattern). -/
def ciLeads : List Char → List Char → Bool
  | [], _ => true
  | _ :: _, [] => false
  | p :: ps, c :: cs => (decide (p.toLower = c.toLower)) && ciLeads ps cs

/-- The maximal trailing whitespace run of a text. -/
def trailWsL (l : List Char) : List Char := (l.reverse.takeWhile isPyWs).reverse

/-- Leftmost case-insensitive occurrence of the page-break marker:
`some (before, matched, after)`, scanning character by character. -/
def splitAtMarker : List Char → Option (List Char × List Char × List Char)
  | [] => none
  | c :: cs =>
    if ciLeads markerChars (c :: cs) then
      some ([], (c :: cs).take markerChars.length, (c :: cs).drop markerChars.length)
    else
      match splitAtMarker cs with
      | some (b, m, a) => some (c :: b, m, a)
      | none => none

/-- Fuel-indexed model of `re.split(r"\s*--- PAGE BREAK ---\s*", text,
flags=re.IGNORECASE)` from `split_ocr_text` (`src/preprocess.py`): returns
the split pieces and the consumed separators (whitespace run + marker +
whitespace run). Each marker consumes at least one character, so fuel equal
to the text length always suffices. -/
def reSplitF : Nat → List Char → List (List Char) × List (List Char)
  | 0, s => ([s], [])
  | f + 1, s =>
    match splitAtMarker s with
    | none => ([s], [])
    | some (b, m, a) =>
      let r := reSplitF f (a.dropWhile isPyWs)
      (rstripL b :: r.1, (trailWsL b ++ m ++ a.takeWhile isPyWs) :: r.2)

/-- Fuel-indexed count of leftmost non-overlapping (case-insensitive)
occurrences of the page-break marker. -/
def countMarkerF : Nat → List Char → Nat
  | 0, _ => 0
  | f + 1, s =>
    match splitAtMarker s with
    | none => 0
    | some (_, _, a) => countMarkerF f a + 1

/-- The pieces produced by the page-break split. -/
def reSplitPieces (s : List Char) : List (List Char) := (reSplitF s.length s).1

/-- The separators consumed by the page-break split. -/
def reSplitSeps (s : List Char) : List (List Char) := (reSplitF s.length s).2

/-- Number of occurrences of the page-break marker in a source text. -/
def countMarker (T : String) : Nat := countMarkerF T.data.length T.data

/-- Embeds `split_ocr_text` (`src/preprocess.py`): the re.split pieces, each
written `.strip()`-ed. -/
def splitOcrUnits (T : String) : List String :=
  (reSplitPieces T.data).map (fun l => pyStrip ⟨l⟩)

/-- Python `f"{i:04}"` for the page numbers used by `split_ocr_text`. -/
def pad4 (i : Nat) : String :=
  if i < 10 then "000" ++ toString i
  else if i < 100 then "00" ++ toString i
  else if i < 1000 then "0" ++ toString i
  else toString i

/-- The output file name `page_{i:04}.txt` of `split_ocr_text`. -/
def pageName (i : Nat) : String := "page_" ++ pad4 i ++ ".txt"

/-- The files written by `split_ocr_text`: `page_0001.txt`, `page_0002.txt`,
… in order of appearance, with the stripped piece as content. -/
def splitOcrFiles (T : String) : List (String × String) :=
  (splitOcrUnits T).enum.map (fun p => (pageName (p.1 + 1), p.2))

/-- Interleaving pieces and separators back into one text. -/
def interleave : List (List Char) → List (List Char) → List Char
  | [], _ => []
  | p :: _, [] => p
  | p :: ps, sep :: seps => p ++ sep ++ interleave ps seps

/-- The sentence-ending punctuation class `[.!?]` of the sentence-boundary
regex in `src/splitter.py`. -/
def isSentPunct (c : Char) : Bool := c = '.' || c = '!' || c = '?'

/-- The lookahead class of the sentence-boundary regex in `src/splitter.py`.
The source file literally contains the characters `â`, `€`, `œ` (a mis-decoded
left curly quote) next to `A-Z` and the escaped `"`. -/
def isSentStart (c : Char) : Bool :=
  (decide ('A' ≤ c) && decide (c ≤ 'Z')) || c = 'â' || c = '€' || c = 'œ' || c = '"'

/-- Whether the accumulated sentence text ends in sentence punctuation (the
lookbehind `(?<=[.!?])`). -/
def lastIsPunct (cur : List Char) : Bool :=
  match cur.getLast? with
  | some c => isSentPunct c
  | none => false

/-- Scanner for `re.split(r'(?<=[.!?])\s+(?=[A-Zâ€œ"])', text)`: `cur` is the
sentence accumulated so far and `pend` a pending whitespace run that began
right after sentence punctuation; the run is consumed as a split point only
when the next character is in the lookahead class, otherwise it stays part of
the sentence. -/
def sentGo (cur pend : List Char) : List Char → List (List Char)
  | [] => [cur ++ pend]
  | c :: rest =>
    if pend.isEmpty then
      if isPyWs c && lastIsPunct cur then sentGo cur [c] rest
      else sentGo (cur ++ [c]) [] rest
    else
      if isPyWs c then sentGo cur (pend ++ [c]) rest
      else if isSentStart c then cur :: sentGo [c] [] rest
      else sentGo (cur ++ pend ++ [c]) [] rest

/-- Python `" ".join`. -/
def joinSp : List (List Char) → List Char
  | [] => []
  | [x] => x
  | x :: rest => x ++ ' ' :: joinSp rest

/-- `len(sentence.split())`: number of maximal non-whitespace runs; the flag
records whether the scan is inside a word. -/
def wcGo : Bool → List Char → Nat
  | _, [] => 0
  | inw, c :: r => if isPyWs c then wcGo false r else (if inw then 0 else 1) + wcGo true r

/-- Python `len(text.split())`, the word count used by `split_long_chunks`. -/
def wordCount (l : List Char) : Nat := wcGo false l

/-- The greedy batch-packing loop of `split_long_chunks` (`src/splitter.py`):
a sentence is appended to the current batch unless adding it would exceed
`max_words` and the batch is non-empty, in which case the batch is emitted
(joined with spaces and stripped) and a new batch starts with the sentence. -/
def packGo (maxWords : Nat) : List (List Char) → List (List Char) → Nat → List (List Char)
  | [], curB, _ => if curB.isEmpty then [] else [stripL (joinSp curB)]
  | s :: rest, curB, cnt =>
    let wc := wordCount s
    if maxWords < cnt + wc ∧ ¬curB.isEmpty = true then
      stripL (joinSp curB) :: packGo maxWords rest [s] wc
    else
      packGo maxWords rest (curB ++ [s]) (cnt + wc)

/-- The batches `split_long_chunks` builds for one unit: the stripped unit
text, split on sentence boundaries, greedily packed. -/
def unitBatches (content : String) (maxWords : Nat) : List (List Char) :=
  packGo maxWords (sentGo [] [] (stripL content.data)) [] 0

/-- Python `f"{i:02}"` for the part numbers used by `split_long_chunks`. -/
def pad2 (i : Nat) : String := if i < 10 then "0" ++ toString i else toString i

/-- Embeds the per-unit output of `split_long_chunks`: a single batch goes to
the unit's original file name, several batches go to `stem_partNN.txt`. -/
def splitLongUnit (stem : String) (content : String) (maxWords : Nat) :
    List (String × String) :=
  let batches := unitBatches content maxWords
  if batches.length = 1 then [(stem ++ ".txt", ⟨batches.headD []⟩)]
  else batches.enum.map (fun p => (stem ++ "_part" ++ pad2 (p.1 + 1) ++ ".txt", (⟨p.2⟩ : String)))

/-- Fuel-indexed Python `s.replace("_ocr", "")` (leftmost, non-overlapping);
each step consumes at least one character, so fuel = length suffices. -/
def removeOcrF : Nat → List Char → List Char
  | 0, s => s
  | _ + 1, [] => []
  | f + 1, c :: cs =>
    if leadsWith "_ocr".data (c :: cs) then removeOcrF f ((c :: cs).drop 4)
    else c :: removeOcrF f cs

/-- Python `s.replace("_ocr", "")` as used on input stems by `run_batch`. -/
def removeOcr (s : List Char) : List Char := removeOcrF s.length s

/-- Whether `suf` is a final run of `s`. -/
def endsWithL (suf s : List Char) : Bool := leadsWith suf.reverse s.reverse

/-- `Path.stem` for the `*.txt` inputs that `run_batch` globs. -/
def pyStem (s : String) : String :=
  if endsWithL ".txt".data s.data then ⟨s.data.take (s.data.length - 4)⟩ else s

/-- `input_path.stem.replace("_ocr", "")` from `run_batch` (`src/runner.py`). -/
def projectName (file : String) : String := ⟨removeOcr (pyStem file).data⟩

/-- The per-document final artifact `root/project/narration_{lang}.md` whose
existence `run_batch` uses as the "already fully processed" predicate. -/
def narrationPath (root lang file : String) : String :=
  root ++ "/" ++ projectName file ++ "/" ++ "narration_" ++ lang ++ ".md"

/-- Embeds the skip logic of `PipelineRunner.run_batch` (`src/runner.py`):
iterate the input files in order; a document whose narration file exists is
skipped unless `force`; every other document is run through the whole
pipeline. Returns the files actually processed, in order. -/
def runBatch (root lang : String) (ex : String → Bool) (force : Bool) :
    List String → List String
  | [] => []
  | f :: rest =>
    if ex (narrationPath root lang f) && !force then runBatch root lang ex force rest
    else f :: runBatch root lang ex force rest

/-- A concrete filesystem for witnesses: only doc1's narration file exists. -/
def exArtifact : String → Bool := fun p => p = "p/doc1/narration_en.md"

/-- AWS Polly terminal statuses, as tested by `synthesize_speech_aws_polly`
(`src/audio.py`): `task_status in ["completed", "failed"]`. -/
def pollyTerminal (s : String) : Bool := s = "completed" || s = "failed"

/-- Fuel-indexed unrolling of the `while True` poll loop of
`synthesize_speech_aws_polly`: `status i` is the status returned by the
`get_speech_synthesis_task` call number `i`; on a non-terminal status the
loop sleeps 5 seconds (recorded in `acc`) and polls again; `none` means the
loop has not exited within `n` polls. -/
def pollF (status : Nat → String) : Nat → Nat → List Nat → Option (String × Nat × List Nat)
  | 0, _, _ => none
  | n + 1, i, acc =>
    if pollyTerminal (status i) then some (status i, i, acc)
    else pollF status n (i + 1) (acc ++ [5])

/-- What `synthesize_speech_aws_polly` does after the loop: on "completed"
fetch the result blob; on anything else raise `RuntimeError`. -/
def synthOutcome : String → Except String Unit :=
  fun s => if s = "completed" then .ok () else .error "Polly synthesis failed"

/-- A concrete status oracle for witnesses: in progress twice, then done. -/
def exStatus : Nat → String := fun i => if i < 2 then "inProgress" else "completed"

/-- A concrete status oracle that never reaches a terminal status. -/
def exStatusStuck : Nat → String := fun _ => "scheduled"

/-- A concrete classifier for witnesses: always answers " TOC ". -/
def exGptToc : String → Except String String := fun _ => .ok " TOC "

/-- A concrete failing classifier for witnesses. -/
def exGptDown : String → Except String String := fun _ => .error "down"

/-- A concrete transform for witnesses: fails on content "B", appends "!" otherwise. -/
def exTransform : String → Except String String :=
  fun s => if s = "B" then .error "boom" else .ok (String.append s "!")

/-- A concrete always-succeeding transform for witnesses. -/
def exOk : String → Except String String :=
  fun s => .ok (String.append s "!")

theorem fsWrite_same (fs : Fs) (name content : String) :
    fsWrite fs name content name = some content := by
  simp [fsWrite]

theorem fsWrite_other (fs : Fs) (name content m : String) (h : m ≠ name) :
    fsWrite fs name content m = fs m := by
  simp [fsWrite, h]

/-- `runStage` never deletes a file: any name bound before the stage is
still bound (to something) afterwards. -/
theorem runStage_preserves (t : String → Except String String) (ow : Bool)
    (units : List (String × String)) :
    ∀ fs : Fs, ∀ n : String, (fs n).isSome = true →
      ((runStage fs t ow units).1 n).isSome = true := by
  induction units with
  | nil => intro fs n h; exact h
  | cons u rest ih =>
    intro fs n h
    obtain ⟨name, content⟩ := u
    show ((runStage ((cleanChunkStep fs t ow name content).1) t ow rest).1 n).isSome = true
    apply ih
    unfold cleanChunkStep
    by_cases hs : (fs name).isSome && !ow
    · simp only [hs, if_pos]; exact h
    · simp only [hs, if_neg, Bool.false_eq_true, not_false_iff]
      cases ht : t content with
      | ok c =>
        by_cases hn : n = name
        · subst hn; simp [fsWrite]
        · simpa [fsWrite, hn] using h
      | error e => exact h

/-- If every unit's output file is already present, the whole stage (with
overwrite off) is a no-op: the directory is returned untouched and every
unit reports skip. -/
theorem runStage_all_present_skips (t : String → Except String String)
    (units : List (String × String)) :
    ∀ fs : Fs, (∀ u ∈ units, (fs u.1).isSome = true) →
      runStage fs t false units = (fs, units.map (fun u => (u.1, ChunkStatus.skip))) := by
  induction units with
  | nil => intro fs _; rfl
  | cons u rest ih =>
    intro fs h
    obtain ⟨name, content⟩ := u
    have hhead : (fs name).isSome = true := h (name, content) (List.mem_cons_self _ _)
    have hstep : cleanChunkStep fs t false name content = (fs, .skip) := by
      unfold cleanChunkStep
      simp [hhead]
    have htail := ih fs (fun v hv => h v (List.mem_cons_of_mem _ hv))
    show (let step := cleanChunkStep fs t false name content
          let tail := runStage step.1 t false rest
          (tail.1, (name, step.2) :: tail.2)) = _
    rw [hstep]
    simp only [htail, List.map_cons]

/-- If a run of the stage reported no failure, then afterwards every unit's
output file exists. -/
theorem runStage_no_fail_all_present (t : String → Except String String) (ow : Bool)
    (units : List (String × String)) :
    ∀ fs : Fs,
      (∀ r ∈ (runStage fs t ow units).2, r.2.isFailed = false) →
      ∀ u ∈ units, ((runStage fs t ow units).1 u.1).isSome = true := by
  induction units with
  | nil => intro fs _ u hu; exact absurd hu (List.not_mem_nil u)
  | cons v rest ih =>
    intro fs h u hu
    obtain ⟨name, content⟩ := v
    have hres : (runStage fs t ow ((name, content) :: rest)).2
        = (name, (cleanChunkStep fs t ow name content).2)
          :: (runStage (cleanChunkStep fs t ow name content).1 t ow rest).2 := rfl
    have hfs : (runStage fs t ow ((name, content) :: rest)).1
        = (runStage (cleanChunkStep fs t ow name content).1 t ow rest).1 := rfl
    have hheadok : (cleanChunkStep fs t ow name content).2.isFailed = false := by
      have := h (name, (cleanChunkStep fs t ow name content).2)
      apply this
      rw [hres]; exact List.mem_cons_self _ _
    have htail : ∀ r ∈ (runStage (cleanChunkStep fs t ow name content).1 t ow rest).2,
        r.2.isFailed = false := by
      intro r hr
      apply h
      rw [hres]; exact List.mem_cons_of_mem _ hr
    rcases List.mem_cons.mp hu with hu1 | hu2
    · -- the head unit: its write (or pre-existing file) survives the rest of the stage
      subst hu1
      rw [hfs]
      apply runStage_preserves
      unfold cleanChunkStep
      by_cases hs : (fs name).isSome && !ow
      · simp only [hs, if_pos]
        have hs2 := hs
        simp only [Bool.and_eq_true] at hs2
        exact hs2.1
      · simp only [hs, if_neg, Bool.false_eq_true, not_false_iff]
        cases ht : t content with
        | ok c => simp [fsWrite]
        | error e =>
          exfalso
          have : (cleanChunkStep fs t ow name content).2 = .failed e := by
            unfold cleanChunkStep
            simp only [hs, if_neg, Bool.false_eq_true, not_false_iff, ht]
          rw [this] at hheadok
          simp [ChunkStatus.isFailed] at hheadok
    · rw [hfs]
      exact ih _ htail u hu2

/-- C1: a Stage Runner reports a unit as skipped when its output file already
exists and overwrite is false; when the transform raises for a unit it records
failed(reason) and writes no output file for that unit; and one unit's failure
never prevents the others: on 3 units where unit 2's transform raises, the
output directory holds units 1 and 3 only, unit 2 is reported failed, and a
re-run re-attempts only unit 2. -/
theorem C1_stage_runner_failure_isolation :
    (∀ (fs : Fs) (t : String → Except String String) (name content : String),
        (fs name).isSome = true →
        cleanChunkStep fs t false name content = (fs, ChunkStatus.skip)) ∧
    (∀ (fs : Fs) (t : String → Except String String) (ow : Bool)
        (name content e : String), fs name = none → t content = .error e →
        cleanChunkStep fs t ow name content = (fs, ChunkStatus.failed e)) ∧
    (∀ (t : String → Except String String) (e c1 c3 : String),
        t "A" = .ok c1 → t "B" = .error e → t "C" = .ok c3 →
        (runStage emptyFs t false [("u1", "A"), ("u2", "B"), ("u3", "C")]).2
            = [("u1", ChunkStatus.cleaned), ("u2", ChunkStatus.failed e),
               ("u3", ChunkStatus.cleaned)] ∧
        (runStage emptyFs t false [("u1", "A"), ("u2", "B"), ("u3", "C")]).1 "u1" = some c1 ∧
        (runStage emptyFs t false [("u1", "A"), ("u2", "B"), ("u3", "C")]).1 "u2" = none ∧
        (runStage emptyFs t false [("u1", "A"), ("u2", "B"), ("u3", "C")]).1 "u3" = some c3 ∧
        (runStage (runStage emptyFs t false [("u1", "A"), ("u2", "B"), ("u3", "C")]).1
            t false [("u1", "A"), ("u2", "B"), ("u3", "C")]).2
            = [("u1", ChunkStatus.skip), ("u2", ChunkStatus.failed e),
               ("u3", ChunkStatus.skip)]) := by
  refine ⟨?_, ?_, ?_⟩
  · intro fs t name content h
    unfold cleanChunkStep
    simp [h]
  · intro fs t ow name content e h ht
    unfold cleanChunkStep
    simp [h, ht]
  · intro t e c1 c3 hA hB hC
    refine ⟨?_, ?_, ?_, ?_, ?_⟩ <;>
      simp [runStage, cleanChunkStep, emptyFs, fsWrite, hA, hB, hC]

/-- Witness for C1 at a concrete transform that fails exactly on unit 2. -/
theorem C1_witness :
    exTransform "A" = .ok "A!" ∧ exTransform "B" = .error "boom" ∧
    exTransform "C" = .ok "C!" ∧
    ((runStage emptyFs exTransform false [("u1", "A"), ("u2", "B"), ("u3", "C")]).2
        = [("u1", ChunkStatus.cleaned), ("u2", ChunkStatus.failed "boom"),
           ("u3", ChunkStatus.cleaned)] ∧
     (runStage emptyFs exTransform false
         [("u1", "A"), ("u2", "B"), ("u3", "C")]).1 "u1" = some "A!" ∧
     (runStage emptyFs exTransform false
         [("u1", "A"), ("u2", "B"), ("u3", "C")]).1 "u2" = none ∧
     (runStage emptyFs exTransform false
         [("u1", "A"), ("u2", "B"), ("u3", "C")]).1 "u3" = some "C!" ∧
     (runStage (runStage emptyFs exTransform false
         [("u1", "A"), ("u2", "B"), ("u3", "C")]).1
         exTransform false [("u1", "A"), ("u2", "B"), ("u3", "C")]).2
        = [("u1", ChunkStatus.skip), ("u2", ChunkStatus.failed "boom"),
           ("u3", ChunkStatus.skip)]) :=
  ⟨rfl, rfl, rfl,
   C1_stage_runner_failure_isolation.2.2 exTransform "boom" "A!" "C!" rfl rfl rfl⟩

/-- C2: re-running a Stage Runner on the same directories with the same
transform and overwrite=false, after a first run in which no unit failed, is
idempotent: the directory is returned unchanged (zero writes, identical
contents) and every unit is reported skipped. -/
theorem C2_stage_runner_idempotent (units : List (String × String))
    (fs₀ : Fs) (t : String → Except String String)
    (h : ∀ r ∈ (runStage fs₀ t false units).2, r.2.isFailed = false) :
    runStage (runStage fs₀ t false units).1 t false units
      = ((runStage fs₀ t false units).1,
         units.map (fun u => (u.1, ChunkStatus.skip))) := by
  apply runStage_all_present_skips
  intro u hu
  exact runStage_no_fail_all_present t false units fs₀ h u hu

/-- Witness for C2 on two concrete units with an always-succeeding transform. -/
theorem C2_witness :
    (∀ r ∈ (runStage emptyFs exOk false [("u1", "A"), ("u2", "B")]).2,
        r.2.isFailed = false) ∧
    runStage (runStage emptyFs exOk false [("u1", "A"), ("u2", "B")]).1 exOk false
        [("u1", "A"), ("u2", "B")]
      = ((runStage emptyFs exOk false [("u1", "A"), ("u2", "B")]).1,
         [("u1", ChunkStatus.skip), ("u2", ChunkStatus.skip)]) :=
  ⟨by decide, C2_stage_runner_idempotent [("u1", "A"), ("u2", "B")] emptyFs exOk (by decide)⟩

set_option maxRecDepth 8192 in
/-- C3: `classify_chunks` writes every unit into exactly one label
subdirectory `output_dir/label/id`: the label is the classifier's value when
that value is allowed, and "body" otherwise — including when the classifier
raises; the written file holds the unit's (possibly truncated) content. -/
theorem C3_classifier_fallback :
    (∀ (gpt : String → Except String String) (content : String),
        (classifyChunk gpt content).1 ∈ allowedLabels ∧
        (∀ l, classifyWithGpt gpt (pyTake 2000 content) = .ok l → l ∈ allowedLabels →
            (classifyChunk gpt content).1 = l) ∧
        (∀ l, classifyWithGpt gpt (pyTake 2000 content) = .ok l → l ∉ allowedLabels →
            (classifyChunk gpt content).1 = "body") ∧
        (∀ e, classifyWithGpt gpt (pyTake 2000 content) = .error e →
            (classifyChunk gpt content).1 = "body") ∧
        (classifyChunk gpt content).2 = pyTake 2000 content) ∧
    (∀ (gpt : String → Except String String) (units : List (String × String)),
        classifyChunks gpt units = units.map (fun u => (u.1, classifyChunk gpt u.2))) := by
  constructor
  · intro gpt content
    refine ⟨?_, ?_, ?_, ?_, rfl⟩
    · cases h : classifyWithGpt gpt (pyTake 2000 content) with
      | ok l =>
        by_cases hl : l ∈ allowedLabels
        · have hc : (classifyChunk gpt content).1 = l := by simp [classifyChunk, h, hl]
          rw [hc]; exact hl
        · have hc : (classifyChunk gpt content).1 = "body" := by simp [classifyChunk, h, hl]
          rw [hc]; decide
      | error e =>
        have hc : (classifyChunk gpt content).1 = "body" := by simp [classifyChunk, h]
        rw [hc]; decide
    · intro l h hl
      unfold classifyChunk
      simp [h, hl]
    · intro l h hl
      unfold classifyChunk
      simp [h, hl]
    · intro e h
      unfold classifyChunk
      simp [h]
  · intro gpt units
    rfl

set_option maxRecDepth 8192 in
/-- Witness for C3: a classifier answering " TOC " routes to "toc"; a raising
classifier routes to "body"; the written content is the truncated input. -/
theorem C3_witness :
    classifyWithGpt exGptToc (pyTake 2000 "hello") = .ok "toc" ∧
    "toc" ∈ allowedLabels ∧
    (classifyChunk exGptToc "hello").1 = "toc" ∧
    (classifyChunk exGptDown "hello").1 = "body" ∧
    (classifyChunk exGptToc "hello").2 = pyTake 2000 "hello" :=
  ⟨rfl, by decide,
   ((C3_classifier_fallback.1 exGptToc "hello").2.1 "toc" rfl (by decide)),
   ((C3_classifier_fallback.1 exGptDown "hello").2.2.2.1 "down" rfl),
   ((C3_classifier_fallback.1 exGptToc "hello").2.2.2.2)⟩

/-- The per-page inner loop, fused: running the flat dedup over a page's
lines followed by a tail continues with the page's updated seen-set. -/
theorem flatGo_append (tail : List String) :
    ∀ (lines : List String) (seen : List String),
      flatGo seen (lines ++ tail)
        = (pageLinesGo seen lines).1 ++ flatGo (pageLinesGo seen lines).2 tail := by
  intro lines
  induction lines with
  | nil => intro seen; rfl
  | cons line rest ih =>
    intro seen
    cases h : headingTitle line with
    | some t =>
      by_cases hs : t ∈ seen
      · simp [flatGo, pageLinesGo, h, hs, ih]
      · simp [flatGo, pageLinesGo, h, hs, ih]
    | none => simp [flatGo, pageLinesGo, h, ih]

theorem headingTitle_blank : headingTitle "" = none := rfl

/-- The nested page/line loops of `remove_redundant_headers` equal one flat
dedup pass over the page texts' lines with a blank line after each page. -/
theorem pagesGo_flat : ∀ (pages : List String) (seen : List String),
    pagesGo seen pages = flatGo seen (flatLines pages) := by
  intro pages
  induction pages with
  | nil => intro seen; rfl
  | cons p rest ih =>
    intro seen
    have h1 : flatLines (p :: rest) = pySplitlines p ++ ("" :: flatLines rest) := by
      simp [flatLines]
    have h2 : ∀ (s : List String) (L : List String), flatGo s ("" :: L) = "" :: flatGo s L := by
      intro s L
      simp [flatGo, headingTitle_blank]
    show (pageLinesGo seen (pySplitlines p)).1 ++ [""]
          ++ pagesGo (pageLinesGo seen (pySplitlines p)).2 rest
        = flatGo seen (flatLines (p :: rest))
    rw [h1, flatGo_append, h2, ih]
    simp

/-- The seen-set pass equals the spec-worded pass: the seen-set holds exactly
the normalised titles of the already-processed heading lines. -/
theorem flatGo_eq_keptSpec : ∀ (lines seen prev : List String),
    (∀ x, x ∈ seen ↔ x ∈ prev.filterMap headingTitle) →
    flatGo seen lines = keptSpecGo prev lines := by
  intro lines
  induction lines with
  | nil => intro seen prev _; rfl
  | cons line rest ih =>
    intro seen prev hinv
    cases h : headingTitle line with
    | some t =>
      by_cases hs : t ∈ seen
      · have hp : t ∈ prev.filterMap headingTitle := (hinv t).mp hs
        have hinv2 : ∀ x, x ∈ seen ↔ x ∈ (prev ++ [line]).filterMap headingTitle := by
          intro x
          rw [List.filterMap_append]
          constructor
          · intro hx; exact List.mem_append_left _ ((hinv x).mp hx)
          · intro hx
            rcases List.mem_append.mp hx with hx1 | hx2
            · exact (hinv x).mpr hx1
            · have hx3 : x = t := by simpa [h] using hx2
              rw [hx3]; exact hs
        simp [flatGo, keptSpecGo, h, hs, hp, ih _ _ hinv2]
      · have hp : t ∉ prev.filterMap headingTitle := fun hc => hs ((hinv t).mpr hc)
        have hinv2 : ∀ x, x ∈ t :: seen ↔ x ∈ (prev ++ [line]).filterMap headingTitle := by
          intro x
          rw [List.filterMap_append]
          simp only [List.mem_cons, List.mem_append]
          constructor
          · intro hx
            rcases hx with hx1 | hx2
            · right; rw [hx1]; simp [h]
            · left; exact (hinv x).mp hx2
          · intro hx
            rcases hx with hx1 | hx2
            · right; exact (hinv x).mpr hx1
            · left; simpa [h] using hx2
        simp [flatGo, keptSpecGo, h, hs, hp, ih _ _ hinv2]
    | none =>
      have hinv2 : ∀ x, x ∈ seen ↔ x ∈ (prev ++ [line]).filterMap headingTitle := by
        intro x
        rw [List.filterMap_append]
        simp [h, hinv x]
      simp [flatGo, keptSpecGo, h, ih _ _ hinv2]

/-- C4: the Combiner reads pages in directory order and lexicographic id
order within a directory, skips pages containing the literal `--- EMPTY ---`
marker, drops a heading line exactly when its lower-cased trimmed title was
already seen on an earlier heading line, keeps every other line verbatim and
appends a blank line after each page; two pages each containing `# Intro`
yield exactly one `# Intro` line. -/
theorem C4_combiner_order_and_dedup :
    (∀ dirs : List (List (String × String)),
        combineAll dirs = removeRedundantHeaders (dirs.flatMap (fun d =>
          ((sortById d).map Prod.snd).filter (fun t => !containsStr "--- EMPTY ---" t)))) ∧
    (∀ pages : List String, removeRedundantHeaders pages = joinNL (keptLinesSpec pages)) ∧
    combineAll [[("p2.txt", "# Intro\nz"), ("p1.txt", "x\n# Intro"),
                 ("p0.txt", "a --- EMPTY --- b")]] = "x\n# Intro\n\nz\n" ∧
    (pySplitlines (combineAll [[("p2.txt", "# Intro\nz"), ("p1.txt", "x\n# Intro"),
                 ("p0.txt", "a --- EMPTY --- b")]])).count "# Intro" = 1 := by
  refine ⟨fun dirs => rfl, ?_, by decide, by decide⟩
  intro pages
  unfold removeRedundantHeaders keptLinesSpec
  rw [pagesGo_flat]
  rw [flatGo_eq_keptSpec _ [] [] (by simp)]

theorem dropWhile_dropWhile (p : Char → Bool) :
    ∀ l : List Char, List.dropWhile p (List.dropWhile p l) = List.dropWhile p l := by
  intro l
  induction l with
  | nil => rfl
  | cons a l ih =>
    by_cases h : p a
    · simp [List.dropWhile_cons, h, ih]
    · simp [List.dropWhile_cons, h]

theorem stripL_dropWhile (l : List Char) :
    stripL (List.dropWhile isPyWs l) = stripL l := by
  unfold stripL lstripL
  rw [dropWhile_dropWhile]

theorem takeWhile_hashes (n : Nat) (l : List Char) :
    (List.replicate n '#' ++ ' ' :: l).takeWhile (fun c => c = '#')
      = List.replicate n '#' := by
  induction n with
  | zero => simp [List.takeWhile_cons]
  | succ k ih => simp [List.replicate_succ, List.takeWhile_cons, ih]

theorem dropWhile_hashes (n : Nat) (l : List Char) :
    (List.replicate n '#' ++ ' ' :: l).dropWhile (fun c => c = '#') = ' ' :: l := by
  induction n with
  | zero => simp [List.dropWhile_cons]
  | succ k ih => simp [List.replicate_succ, List.dropWhile_cons, ih]

/-- Parsing a constructed heading line yields its normalised title, whatever
the heading level `n ≥ 1`. -/
theorem headingTitle_mk (n : Nat) (hn : 0 < n) (t : String) :
    headingTitle (mkHeadingLine n t) = some (pyLower (pyStrip t)) := by
  have hdata : (mkHeadingLine n t).data = List.replicate n '#' ++ ' ' :: t.data := rfl
  have hne : (List.replicate n '#').isEmpty = false := by
    cases n with
    | zero => exact absurd hn (by omega)
    | succ k => rfl
  have hws : ((' ' :: t.data).takeWhile isPyWs).isEmpty = false := by
    simp [List.takeWhile_cons, isPyWs]
  have hdrop : List.dropWhile isPyWs (' ' :: t.data) = List.dropWhile isPyWs t.data := by
    simp [List.dropWhile_cons, isPyWs]
  have hstr : pyStrip ⟨List.dropWhile isPyWs t.data⟩ = pyStrip t := by
    unfold pyStrip
    show (⟨stripL (List.dropWhile isPyWs t.data)⟩ : String) = ⟨stripL t.data⟩
    rw [stripL_dropWhile]
  simp only [headingTitle, hdata, takeWhile_hashes, dropWhile_hashes, hne, hws,
    Bool.false_eq_true, if_false, hdrop, hstr]

theorem normNl_safe : ∀ l : List Char,
    (l.all (fun c => !(c = '\n') && !(c = '\r'))) = true → normNl l = l := by
  intro l
  induction l with
  | nil => intro _; rfl
  | cons a l ih =>
    intro h
    simp only [List.all_cons, Bool.and_eq_true, Bool.not_eq_true', decide_eq_false_iff_not]
      at h
    obtain ⟨⟨ha1, ha2⟩, hl⟩ := h
    cases l with
    | nil => simp [normNl, ha2]
    | cons b m =>
      have hl2 : ((b :: m).all (fun c => !(c = '\n') && !(c = '\r'))) = true := by
        simpa using hl
      show normNl (a :: b :: m) = a :: b :: m
      rw [normNl]
      simp only [ha2, if_false]
      rw [ih hl2]

theorem splitlinesGo_safe : ∀ (l cur : List Char),
    (l.all (fun c => !(c = '\n') && !(c = '\r'))) = true →
    splitlinesGo cur l = [cur ++ l] := by
  intro l
  induction l with
  | nil => intro cur _; simp [splitlinesGo]
  | cons a l ih =>
    intro cur h
    simp only [List.all_cons, Bool.and_eq_true, Bool.not_eq_true', decide_eq_false_iff_not]
      at h
    obtain ⟨⟨ha1, ha2⟩, hl⟩ := h
    rw [splitlinesGo]
    simp only [ha1, if_false]
    rw [ih (cur ++ [a]) (by simpa using hl)]
    simp

/-- A constructed heading line on safe text splits into just itself. -/
theorem pySplitlines_mk (n : Nat) (t : String) (ht : lineSafe t = true) :
    pySplitlines (mkHeadingLine n t) = [mkHeadingLine n t] := by
  have hdata : (mkHeadingLine n t).data = List.replicate n '#' ++ ' ' :: t.data := rfl
  have hne : (mkHeadingLine n t).data.isEmpty = false := by
    rw [hdata]
    cases n with
    | zero => rfl
    | succ k => rfl
  have hall : ((mkHeadingLine n t).data.all (fun c => !(c = '\n') && !(c = '\r'))) = true := by
    rw [hdata, List.all_eq_true]
    intro c hc
    rcases List.mem_append.mp hc with h1 | h2
    · rw [List.eq_of_mem_replicate h1]; decide
    · rcases List.mem_cons.mp h2 with h3 | h4
      · rw [h3]; decide
      · exact List.all_eq_true.mp ht c h4
  unfold pySplitlines
  rw [hne]
  simp only [Bool.false_eq_true, if_false]
  rw [normNl_safe _ hall, splitlinesGo_safe _ [] hall]
  simp

theorem strData_append (a b : String) : (a ++ b).data = a.data ++ b.data := by
  cases a; cases b; rfl

theorem joinNL_three (a : String) : joinNL [a, "", ""] = a ++ "\n\n" := by
  show a ++ "\n" ++ ("" ++ "\n" ++ "") = a ++ "\n\n"
  apply String.ext
  simp [strData_append]

/-- C10: the Combiner's heading dedup keys only on the normalised title,
ignoring the heading level: a later heading whose lower-cased trimmed title
matches an earlier heading of any other level is dropped. -/
theorem C10_dedup_ignores_heading_level (n m : Nat) (t s : String)
    (hn : 0 < n) (hm : 0 < m)
    (ht : lineSafe t = true) (hs : lineSafe s = true)
    (heq : pyLower (pyStrip s) = pyLower (pyStrip t)) :
    removeRedundantHeaders [mkHeadingLine n t, mkHeadingLine m s]
      = mkHeadingLine n t ++ "\n\n" := by
  have h1 := headingTitle_mk n hn t
  have h2 : headingTitle (mkHeadingLine m s) = some (pyLower (pyStrip t)) := by
    rw [headingTitle_mk m hm s, heq]
  unfold removeRedundantHeaders
  rw [show pagesGo [] [mkHeadingLine n t, mkHeadingLine m s]
        = (pageLinesGo [] (pySplitlines (mkHeadingLine n t))).1 ++ [""]
          ++ pagesGo (pageLinesGo [] (pySplitlines (mkHeadingLine n t))).2
               [mkHeadingLine m s] from rfl]
  rw [pySplitlines_mk n t ht]
  simp only [pageLinesGo, h1, h2, pagesGo, pySplitlines_mk m s hs, List.not_mem_nil,
    if_false, List.mem_singleton]
  simp [joinNL_three]

/-- Witness for C10: after a page `# Intro`, the line `## Intro` is dropped. -/
theorem C10_witness :
    mkHeadingLine 1 "Intro" = "# Intro" ∧ mkHeadingLine 2 "Intro" = "## Intro" ∧
    (0 < 1 ∧ 0 < 2 ∧ lineSafe "Intro" = true) ∧
    removeRedundantHeaders [mkHeadingLine 1 "Intro", mkHeadingLine 2 "Intro"]
      = mkHeadingLine 1 "Intro" ++ "\n\n" :=
  ⟨rfl, rfl, ⟨by decide, by decide, by decide⟩,
   C10_dedup_ignores_heading_level 1 2 "Intro" "Intro" (by decide) (by decide)
     (by decide) (by decide) rfl⟩

theorem dropWhile_length_le (p : Char → Bool) :
    ∀ l : List Char, (l.dropWhile p).length ≤ l.length := by
  intro l
  induction l with
  | nil => simp
  | cons a l ih =>
    by_cases h : p a
    · simp only [List.dropWhile_cons, h, if_true, List.length_cons]
      omega
    · simp [List.dropWhile_cons, h]

theorem ciLeads_length : ∀ (p s : List Char), ciLeads p s = true → p.length ≤ s.length := by
  intro p
  induction p with
  | nil => intro s _; simp
  | cons a ps ih =>
    intro s h
    cases s with
    | nil => simp [ciLeads] at h
    | cons c cs =>
      simp only [ciLeads, Bool.and_eq_true] at h
      have := ih cs h.2
      simp only [List.length_cons]
      omega

theorem ciLeads_take : ∀ (p s : List Char), ciLeads p s = true →
    ciLeads p (s.take p.length) = true := by
  intro p
  induction p with
  | nil => intro s _; rfl
  | cons a ps ih =>
    intro s h
    cases s with
    | nil => simp [ciLeads] at h
    | cons c cs =>
      simp only [ciLeads, Bool.and_eq_true] at h
      simp only [List.length_cons, List.take_succ_cons]
      simp only [ciLeads, Bool.and_eq_true]
      exact ⟨h.1, ih cs h.2⟩

theorem splitAtMarker_inv : ∀ (s b m a : List Char),
    splitAtMarker s = some (b, m, a) →
    s = b ++ m ++ a ∧ m.length = markerChars.length ∧ ciLeads markerChars m = true := by
  intro s
  induction s with
  | nil => intro b m a h; simp [splitAtMarker] at h
  | cons c cs ih =>
    intro b m a h
    rw [splitAtMarker] at h
    by_cases hc : ciLeads markerChars (c :: cs) = true
    · rw [if_pos hc] at h
      simp only [Option.some.injEq, Prod.mk.injEq] at h
      obtain ⟨hb, hm, ha⟩ := h
      have hlen : markerChars.length ≤ (c :: cs).length := ciLeads_length _ _ hc
      refine ⟨?_, ?_, ?_⟩
      · rw [← hb, ← hm, ← ha]
        simp [List.take_append_drop]
      · rw [← hm, List.length_take]
        omega
      · rw [← hm]
        exact ciLeads_take _ _ hc
    · rw [if_neg hc] at h
      cases hrec : splitAtMarker cs with
      | none => rw [hrec] at h; simp at h
      | some triple =>
        obtain ⟨b2, m2, a2⟩ := triple
        rw [hrec] at h
        simp only [Option.some.injEq, Prod.mk.injEq] at h
        obtain ⟨hb, hm, ha⟩ := h
        obtain ⟨ih1, ih2, ih3⟩ := ih b2 m2 a2 hrec
        refine ⟨?_, ?_, ?_⟩
        · rw [← hb, ← hm, ← ha]
          rw [List.cons_append, List.cons_append, ← ih1]
        · rw [← hm]; exact ih2
        · rw [← hm]; exact ih3

theorem rstrip_decomp (l : List Char) : rstripL l ++ trailWsL l = l := by
  show (l.reverse.dropWhile isPyWs).reverse ++ (l.reverse.takeWhile isPyWs).reverse = l
  rw [← List.reverse_append, List.takeWhile_append_dropWhile, List.reverse_reverse]

theorem takeWhile_all (p : Char → Bool) : ∀ l : List Char, (l.takeWhile p).all p = true := by
  intro l
  induction l with
  | nil => rfl
  | cons a l ih =>
    by_cases h : p a
    · simp [List.takeWhile_cons, h, ih]
    · simp [List.takeWhile_cons, h]

theorem trailWs_all (l : List Char) : (trailWsL l).all isPyWs = true := by
  rw [List.all_eq_true]
  intro c hc
  unfold trailWsL at hc
  rw [List.mem_reverse] at hc
  exact List.all_eq_true.mp (takeWhile_all isPyWs l.reverse) c hc

theorem ws_not_marker (c : Char) (t : List Char) (h : isPyWs c = true) :
    ciLeads markerChars (c :: t) = false := by
  have h1 : decide ('-'.toLower = c.toLower) = false := by
    simp only [isPyWs, Bool.or_eq_true, decide_eq_true_eq] at h
    rcases h with ((((h | h) | h) | h) | h) | h <;> rw [h] <;> decide
  have hd : markerChars = '-' :: "-- PAGE BREAK ---".data := rfl
  rw [hd, ciLeads, h1, Bool.false_and]

theorem splitAtMarker_ws_cons (c : Char) (t : List Char) (h : isPyWs c = true) :
    splitAtMarker (c :: t)
      = match splitAtMarker t with
        | some (b, m, a) => some (c :: b, m, a)
        | none => none := by
  rw [splitAtMarker, ws_not_marker c t h]
  simp

theorem countMarkerF_nil (f : Nat) : countMarkerF f [] = 0 := by
  cases f <;> rfl

theorem reSplitF_nil (f : Nat) : reSplitF f [] = ([[]], []) := by
  cases f <;> rfl

theorem countMarkerF_none (f : Nat) (s : List Char) (h : splitAtMarker s = none) :
    countMarkerF f s = 0 := by
  cases f with
  | zero => rfl
  | succ f => simp [countMarkerF, h]

theorem reSplitF_none (f : Nat) (s : List Char) (h : splitAtMarker s = none) :
    reSplitF f s = ([s], []) := by
  cases f with
  | zero => rfl
  | succ f => simp [reSplitF, h]

theorem markerChars_length : markerChars.length = 18 := rfl

theorem splitAtMarker_after_lt (s b m a : List Char)
    (h : splitAtMarker s = some (b, m, a)) : a.length < s.length := by
  obtain ⟨h1, h2, _⟩ := splitAtMarker_inv s b m a h
  rw [h1]
  simp only [List.length_append]
  rw [markerChars_length] at h2
  omega

theorem countMarkerF_congr : ∀ (f g : Nat) (s : List Char), s.length ≤ f → s.length ≤ g →
    countMarkerF f s = countMarkerF g s := by
  intro f
  induction f with
  | zero =>
    intro g s hf _
    have hs : s = [] := List.length_eq_zero.mp (Nat.le_zero.mp hf)
    rw [hs, countMarkerF_nil, countMarkerF_nil]
  | succ f ih =>
    intro g s hf hg
    cases g with
    | zero =>
      have hs : s = [] := List.length_eq_zero.mp (Nat.le_zero.mp hg)
      rw [hs, countMarkerF_nil, countMarkerF_nil]
    | succ g =>
      cases hsp : splitAtMarker s with
      | none => rw [countMarkerF_none _ _ hsp, countMarkerF_none _ _ hsp]
      | some triple =>
        obtain ⟨b, m, a⟩ := triple
        have hlt := splitAtMarker_after_lt s b m a hsp
        simp only [countMarkerF, hsp]
        exact congrArg (· + 1) (ih g a (by omega) (by omega))

theorem countMarkerF_cons_ws (c : Char) (t : List Char) (h : isPyWs c = true) :
    ∀ (g g2 : Nat), (c :: t).length ≤ g → t.length ≤ g2 →
    countMarkerF g (c :: t) = countMarkerF g2 t := by
  intro g g2 hg hg2
  cases g with
  | zero => simp at hg
  | succ g =>
    have hG : countMarkerF (g + 1) (c :: t)
        = match splitAtMarker (c :: t) with
          | none => 0
          | some (_, _, a) => countMarkerF g a + 1 := rfl
    rw [hG, splitAtMarker_ws_cons c t h]
    cases hsp : splitAtMarker t with
    | none => rw [countMarkerF_none g2 t hsp]
    | some triple =>
      obtain ⟨b, m, a⟩ := triple
      have hlt := splitAtMarker_after_lt t b m a hsp
      cases g2 with
      | zero =>
        exfalso
        have ht : t = [] := List.length_eq_zero.mp (Nat.le_zero.mp hg2)
        rw [ht] at hsp
        simp [splitAtMarker] at hsp
      | succ g2 =>
        simp only [countMarkerF, hsp, List.length_cons] at *
        exact congrArg (· + 1) (countMarkerF_congr g g2 a (by omega) (by omega))

theorem countMarkerF_dropWs : ∀ (a : List Char) (f g : Nat), a.length ≤ f → a.length ≤ g →
    countMarkerF f (a.dropWhile isPyWs) = countMarkerF g a := by
  intro a
  induction a with
  | nil =>
    intro f g _ _
    show countMarkerF f [] = countMarkerF g []
    rw [countMarkerF_nil, countMarkerF_nil]
  | cons c t ih =>
    intro f g hf hg
    by_cases hc : isPyWs c = true
    · have hdw : (c :: t).dropWhile isPyWs = t.dropWhile isPyWs := by
        simp [List.dropWhile_cons, hc]
      rw [hdw]
      have h1 : countMarkerF f (t.dropWhile isPyWs) = countMarkerF t.length t := by
        apply ih
        · simp only [List.length_cons] at hf; omega
        · exact le_rfl
      rw [h1]
      exact (countMarkerF_cons_ws c t hc g t.length hg le_rfl).symm
    · have hdw : (c :: t).dropWhile isPyWs = c :: t := by
        simp [List.dropWhile_cons, hc]
      rw [hdw]
      exact countMarkerF_congr f g (c :: t) hf hg

/-- The page-break split, characterised: the number of pieces is one more
than the number of marker occurrences; pieces interleaved with the consumed
separators reproduce the source text; and every separator is a whitespace
run, one case-insensitive copy of the marker, and a whitespace run. -/
theorem reSplit_main : ∀ (n : Nat) (s : List Char) (f : Nat), s.length ≤ n → s.length ≤ f →
    (reSplitF f s).1.length = countMarkerF n s + 1 ∧
    interleave (reSplitF f s).1 (reSplitF f s).2 = s ∧
    (∀ sep ∈ (reSplitF f s).2, ∃ w1 mm w2, sep = w1 ++ mm ++ w2 ∧
        w1.all isPyWs = true ∧ w2.all isPyWs = true ∧
        ciLeads markerChars mm = true ∧ mm.length = markerChars.length) := by
  intro n
  induction n with
  | zero =>
    intro s f hn _
    have hs : s = [] := List.length_eq_zero.mp (Nat.le_zero.mp hn)
    rw [hs, reSplitF_nil, countMarkerF_nil]
    refine ⟨rfl, rfl, ?_⟩
    intro sep hsep
    simp at hsep
  | succ n ih =>
    intro s f hn hf
    cases hsp : splitAtMarker s with
    | none =>
      rw [reSplitF_none f s hsp, countMarkerF_none (n + 1) s hsp]
      refine ⟨rfl, rfl, ?_⟩
      intro sep hsep
      simp at hsep
    | some triple =>
      obtain ⟨b, m, a⟩ := triple
      obtain ⟨hseq, hmlen, hmci⟩ := splitAtMarker_inv s b m a hsp
      have halt : a.length < s.length := splitAtMarker_after_lt s b m a hsp
      cases f with
      | zero =>
        exfalso
        have hs : s = [] := List.length_eq_zero.mp (Nat.le_zero.mp hf)
        rw [hs] at hsp
        simp [splitAtMarker] at hsp
      | succ f =>
        have hstep : reSplitF (f + 1) s
            = (rstripL b :: (reSplitF f (a.dropWhile isPyWs)).1,
               (trailWsL b ++ m ++ a.takeWhile isPyWs)
                 :: (reSplitF f (a.dropWhile isPyWs)).2) := by
          simp only [reSplitF, hsp]
        have hrlen : (a.dropWhile isPyWs).length ≤ a.length := dropWhile_length_le _ _
        obtain ⟨ih1, ih2, ih3⟩ := ih (a.dropWhile isPyWs) f (by omega) (by omega)
        refine ⟨?_, ?_, ?_⟩
        · rw [hstep]
          simp only [List.length_cons]
          rw [ih1]
          have hc1 : countMarkerF (n + 1) s = countMarkerF n a + 1 := by
            simp only [countMarkerF, hsp]
          have hc2 : countMarkerF n (a.dropWhile isPyWs) = countMarkerF n a :=
            countMarkerF_dropWs a n n (by omega) (by omega)
          omega
        · rw [hstep]
          show rstripL b ++ (trailWsL b ++ m ++ a.takeWhile isPyWs)
                ++ interleave (reSplitF f (a.dropWhile isPyWs)).1
                     (reSplitF f (a.dropWhile isPyWs)).2 = s
          rw [ih2, hseq]
          calc rstripL b ++ (trailWsL b ++ m ++ a.takeWhile isPyWs) ++ a.dropWhile isPyWs
              = (rstripL b ++ trailWsL b) ++ m
                ++ (a.takeWhile isPyWs ++ a.dropWhile isPyWs) := by
                simp [List.append_assoc]
            _ = b ++ m ++ a := by rw [rstrip_decomp, List.takeWhile_append_dropWhile]
        · rw [hstep]
          intro sep hsep
          rcases List.mem_cons.mp hsep with h1 | h2
          · exact ⟨trailWsL b, m, a.takeWhile isPyWs, h1, trailWs_all b,
              takeWhile_all _ _, hmci, hmlen⟩
          · exact ih3 sep h2

/-- C5 counterexample: for the source text `" A"` the marker occurs zero
times and the single unit produced is `"A"`, so the units do not concatenate
back to the source text (stripping loses the leading space). -/
theorem C5_counterexample :
    countMarker " A" = 0 ∧ splitOcrUnits " A" = ["A"] ∧ ("A" : String) ≠ " A" :=
  ⟨by decide, by decide, by decide⟩

/-- C5 (amended): `split_ocr_text` produces exactly k+1 units for k marker
occurrences, written `page_0001`, `page_0002`, … in order; each unit is the
corresponding inter-marker piece stripped of surrounding whitespace, and the
pieces interleaved with the consumed separators (whitespace + marker +
whitespace) reproduce the source text exactly; the scenario
`"A\n--- PAGE BREAK ---\nB"` yields the units `["A", "B"]`. -/
theorem C5_splitter_amended (T : String) :
    (splitOcrUnits T).length = countMarker T + 1 ∧
    interleave (reSplitPieces T.data) (reSplitSeps T.data) = T.data ∧
    splitOcrUnits T = (reSplitPieces T.data).map (fun l => pyStrip ⟨l⟩) ∧
    (∀ sep ∈ reSplitSeps T.data, ∃ w1 mm w2, sep = w1 ++ mm ++ w2 ∧
        w1.all isPyWs = true ∧ w2.all isPyWs = true ∧
        ciLeads markerChars mm = true ∧ mm.length = markerChars.length) ∧
    splitOcrUnits "A\n--- PAGE BREAK ---\nB" = ["A", "B"] ∧
    splitOcrFiles "A\n--- PAGE BREAK ---\nB"
      = [("page_0001.txt", "A"), ("page_0002.txt", "B")] := by
  obtain ⟨h1, h2, h3⟩ := reSplit_main T.data.length T.data T.data.length le_rfl le_rfl
  refine ⟨?_, h2, rfl, h3, by decide, by decide⟩
  show (splitOcrUnits T).length = countMarker T + 1
  simp only [splitOcrUnits, List.length_map]
  exact h1

/-- Witness for C5: the one separator consumed in the scenario text is
whitespace + marker + whitespace. -/
theorem C5_witness :
    "\n--- PAGE BREAK ---\n".data ∈ reSplitSeps "A\n--- PAGE BREAK ---\nB".data ∧
    (∃ w1 mm w2, "\n--- PAGE BREAK ---\n".data = w1 ++ mm ++ w2 ∧
        w1.all isPyWs = true ∧ w2.all isPyWs = true ∧
        ciLeads markerChars mm = true ∧ mm.length = markerChars.length) :=
  ⟨by decide,
   (C5_splitter_amended "A\n--- PAGE BREAK ---\nB").2.2.2.1 _ (by decide)⟩

theorem sentGo_ne_nil : ∀ (l cur pend : List Char), sentGo cur pend l ≠ [] := by
  intro l
  induction l with
  | nil => intro cur pend; simp [sentGo]
  | cons c rest ih =>
    intro cur pend
    simp only [sentGo]
    split
    · split
      · exact ih cur [c]
      · exact ih (cur ++ [c]) []
    · split
      · exact ih cur (pend ++ [c])
      · split
        · exact List.cons_ne_nil _ _
        · exact ih (cur ++ pend ++ [c]) []

theorem packGo_pos (maxW : Nat) : ∀ (S curB : List (List Char)) (cnt : Nat),
    ¬(curB = [] ∧ S = []) → 1 ≤ (packGo maxW S curB cnt).length := by
  intro S
  induction S with
  | nil =>
    intro curB cnt h
    cases curB with
    | nil => exact absurd ⟨rfl, rfl⟩ h
    | cons x xs => simp [packGo]
  | cons s rest ih =>
    intro curB cnt _
    simp only [packGo]
    split
    · simp
    · exact ih (curB ++ [s]) (cnt + wordCount s) (by simp)

theorem packGo_singleton (maxW : Nat) : ∀ (S curB : List (List Char)) (cnt : Nat)
    (b : List Char), packGo maxW S curB cnt = [b] → b = stripL (joinSp (curB ++ S)) := by
  intro S
  induction S with
  | nil =>
    intro curB cnt b h
    cases curB with
    | nil => simp [packGo] at h
    | cons x xs =>
      simp only [packGo, List.isEmpty_cons, Bool.false_eq_true, if_false,
        List.cons.injEq, and_true] at h
      rw [← h, List.append_nil]
  | cons s rest ih =>
    intro curB cnt b h
    simp only [packGo] at h
    by_cases hov : maxW < cnt + wordCount s ∧ ¬curB.isEmpty = true
    · rw [if_pos hov] at h
      exfalso
      have h2 : packGo maxW rest [s] (wordCount s) = [] := by
        cases hp : packGo maxW rest [s] (wordCount s) with
        | nil => rfl
        | cons y ys => rw [hp] at h; simp at h
      have h3 := packGo_pos maxW rest [s] (wordCount s) (by simp)
      rw [h2] at h3
      simp at h3
    · rw [if_neg hov] at h
      have h4 := ih (curB ++ [s]) (cnt + wordCount s) b h
      rw [h4, List.append_assoc]
      rfl

theorem wcGo_all_ws : ∀ (w : List Char) (b : Bool), w.all isPyWs = true → wcGo b w = 0 := by
  intro w
  induction w with
  | nil => intro b _; rfl
  | cons c t ih =>
    intro b h
    simp only [List.all_cons, Bool.and_eq_true] at h
    simp [wcGo, h.1, ih false h.2]

theorem wcGo_append_ws : ∀ (l : List Char) (b : Bool) (w : List Char),
    w.all isPyWs = true → wcGo b (l ++ w) = wcGo b l := by
  intro l
  induction l with
  | nil => intro b w h; simp [wcGo, wcGo_all_ws w b h]
  | cons c t ih =>
    intro b w h
    by_cases hc : isPyWs c = true
    · simp [wcGo, hc, ih false w h]
    · simp [wcGo, hc, ih true w h]

theorem wcGo_sep : ∀ (x : List Char) (b : Bool) (y : List Char),
    wcGo b (x ++ ' ' :: y) = wcGo b x + wcGo false y := by
  intro x
  induction x with
  | nil => intro b y; simp [wcGo, isPyWs]
  | cons c t ih =>
    intro b y
    by_cases hc : isPyWs c = true
    · simp [wcGo, hc, ih false y]
    · simp [wcGo, hc, ih true y, Nat.add_assoc]

theorem wc_dropWhile_ws : ∀ l : List Char, wcGo false (l.dropWhile isPyWs) = wcGo false l := by
  intro l
  induction l with
  | nil => rfl
  | cons c t ih =>
    by_cases hc : isPyWs c = true
    · rw [List.dropWhile_cons]
      simp only [hc, if_true]
      rw [ih]
      simp [wcGo, hc]
    · rw [List.dropWhile_cons]
      simp [hc]

theorem wc_strip (l : List Char) : wordCount (stripL l) = wordCount l := by
  unfold stripL
  have h1 : wordCount (rstripL (lstripL l)) = wordCount (lstripL l) := by
    have hd := rstrip_decomp (lstripL l)
    have hw := trailWs_all (lstripL l)
    calc wordCount (rstripL (lstripL l))
        = wcGo false (rstripL (lstripL l) ++ trailWsL (lstripL l)) :=
          (wcGo_append_ws _ false _ hw).symm
      _ = wordCount (lstripL l) := by rw [hd]; rfl
  rw [h1]
  exact wc_dropWhile_ws l

theorem wc_join : ∀ grp : List (List Char),
    wordCount (joinSp grp) = (grp.map wordCount).sum := by
  intro grp
  induction grp with
  | nil => rfl
  | cons x rest ih =>
    cases rest with
    | nil => simp [joinSp]
    | cons y t =>
      show wordCount (x ++ ' ' :: joinSp (y :: t)) = _
      have h0 : wordCount (x ++ ' ' :: joinSp (y :: t))
          = wordCount x + wordCount (joinSp (y :: t)) :=
        wcGo_sep x false (joinSp (y :: t))
      rw [h0, ih]
      simp [List.sum_cons]

/-- Budget invariant of the greedy packing: every emitted batch either fits
the word budget or is one single sentence of the ambient sentence list `S0`
that alone exceeds it. -/
theorem packGo_budget (maxW : Nat) (S0 : List (List Char)) :
    ∀ (S curB : List (List Char)) (cnt : Nat),
    cnt = (curB.map wordCount).sum →
    (∀ x ∈ S, x ∈ S0) →
    (∀ x ∈ curB, x ∈ S0) →
    (curB = [] ∨ (curB.map wordCount).sum ≤ maxW ∨ ∃ s0, curB = [s0]) →
    ∀ b ∈ packGo maxW S curB cnt,
      wordCount b ≤ maxW ∨ ∃ s ∈ S0, b = stripL s ∧ maxW < wordCount s := by
  intro S
  induction S with
  | nil =>
    intro curB cnt _ _ hsub hinv b hb
    cases curB with
    | nil => simp [packGo] at hb
    | cons x xs =>
      simp only [packGo, List.isEmpty_cons, Bool.false_eq_true, if_false,
        List.mem_singleton] at hb
      rcases hinv with h | h | ⟨s0, h⟩
      · exact absurd h (by simp)
      · left
        rw [hb, wc_strip, wc_join]
        exact h
      · by_cases hw : wordCount s0 ≤ maxW
        · left
          rw [hb, h, show joinSp [s0] = s0 from rfl, wc_strip]
          exact hw
        · right
          refine ⟨s0, ?_, by rw [hb, h, show joinSp [s0] = s0 from rfl], by omega⟩
          apply hsub
          rw [h]
          exact List.mem_singleton.mpr rfl
  | cons s rest ih =>
    intro curB cnt hcnt hS hsub hinv b hb
    have hsS0 : s ∈ S0 := hS s (List.mem_cons_self _ _)
    have hrestS0 : ∀ x ∈ rest, x ∈ S0 := fun x hx => hS x (List.mem_cons_of_mem _ hx)
    simp only [packGo] at hb
    by_cases hov : maxW < cnt + wordCount s ∧ ¬curB.isEmpty = true
    · rw [if_pos hov] at hb
      rcases List.mem_cons.mp hb with h1 | h2
      · rcases hinv with h | h | ⟨s0, h⟩
        · exfalso
          rw [h] at hov
          exact hov.2 rfl
        · left
          rw [h1, wc_strip, wc_join]
          exact h
        · by_cases hw : wordCount s0 ≤ maxW
          · left
            rw [h1, h, show joinSp [s0] = s0 from rfl, wc_strip]
            exact hw
          · right
            refine ⟨s0, ?_, by rw [h1, h, show joinSp [s0] = s0 from rfl], by omega⟩
            apply hsub
            rw [h]
            exact List.mem_singleton.mpr rfl
      · apply ih [s] (wordCount s) (by simp) hrestS0 ?_ (Or.inr (Or.inr ⟨s, rfl⟩)) b h2
        intro x hx
        rw [List.mem_singleton.mp hx]
        exact hsS0
    · rw [if_neg hov] at hb
      apply ih (curB ++ [s]) (cnt + wordCount s) ?_ hrestS0 ?_ ?_ b hb
      · rw [hcnt]
        simp [List.map_append, List.sum_append]
      · intro x hx
        rcases List.mem_append.mp hx with hx1 | hx2
        · exact hsub x hx1
        · rw [List.mem_singleton.mp hx2]
          exact hsS0
      · rcases Decidable.em (curB = []) with hc | hc
        · right; right
          exact ⟨s, by rw [hc]; rfl⟩
        · right; left
          have hno : ¬(maxW < cnt + wordCount s) := by
            intro hlt
            apply hov
            refine ⟨hlt, ?_⟩
            cases curB with
            | nil => exact absurd rfl hc
            | cons _ _ => simp
          rw [List.map_append, List.sum_append]
          simp only [List.map_cons, List.map_nil, List.sum_cons, List.sum_nil]
          omega

/-- C6 counterexample: a single-batch unit is not written with its content
as-is — the sentence separator `.\n` is rewritten to `. `. -/
theorem C6_counterexample :
    splitLongUnit "c" "Hi.\nBye" 1200 = [("c.txt", "Hi. Bye")] ∧
    ("Hi. Bye" : String) ≠ "Hi.\nBye" :=
  ⟨by decide, by decide⟩

/-- C6 (amended): a unit always produces at least one batch, an empty unit
exactly one empty batch; a single batch is written under the unit's original
name (no part suffix) with content equal to the unit's sentences rejoined
with single spaces and stripped (identical to the original only when its
sentence separators are already single spaces); several batches are written
as `stem_part01`, `stem_part02`, … in order. -/
theorem C6_split_long_chunks_amended :
    (∀ (content : String) (maxW : Nat), 1 ≤ (unitBatches content maxW).length) ∧
    (∀ maxW : Nat, unitBatches "" maxW = [[]]) ∧
    (∀ (stem content : String) (maxW : Nat) (b : List Char),
        unitBatches content maxW = [b] →
        splitLongUnit stem content maxW = [(stem ++ ".txt", (⟨b⟩ : String))] ∧
        b = stripL (joinSp (sentGo [] [] (stripL content.data)))) ∧
    (∀ (stem content : String) (maxW : Nat), 2 ≤ (unitBatches content maxW).length →
        splitLongUnit stem content maxW
          = (unitBatches content maxW).enum.map
              (fun p => (stem ++ "_part" ++ pad2 (p.1 + 1) ++ ".txt", (⟨p.2⟩ : String)))) := by
  refine ⟨?_, ?_, ?_, ?_⟩
  · intro content maxW
    apply packGo_pos
    intro hcon
    exact sentGo_ne_nil _ _ _ hcon.2
  · intro maxW
    simp [unitBatches, sentGo, packGo, wordCount, wcGo, joinSp, stripL, lstripL, rstripL]
  · intro stem content maxW b h
    constructor
    · simp [splitLongUnit, h]
    · have h2 := packGo_singleton maxW (sentGo [] [] (stripL content.data)) [] 0 b h
      rw [h2]
      rfl
  · intro stem content maxW h
    simp only [splitLongUnit]
    rw [if_neg (by omega)]

/-- Witness for C6: single batch written under the original name with
space-joined content; two batches written as `_part01`, `_part02`. -/
theorem C6_witness :
    unitBatches "Hi.\nBye" 1200 = ["Hi. Bye".data] ∧
    (splitLongUnit "c" "Hi.\nBye" 1200 = [("c.txt", "Hi. Bye")] ∧
     "Hi. Bye".data = stripL (joinSp (sentGo [] [] (stripL "Hi.\nBye".data)))) ∧
    2 ≤ (unitBatches "a b. C d" 2).length ∧
    splitLongUnit "u" "a b. C d" 2
      = (unitBatches "a b. C d" 2).enum.map
          (fun p => ("u" ++ "_part" ++ pad2 (p.1 + 1) ++ ".txt", (⟨p.2⟩ : String))) :=
  ⟨by decide,
   C6_split_long_chunks_amended.2.2.1 "c" "Hi.\nBye" 1200 "Hi. Bye".data (by decide),
   by decide,
   C6_split_long_chunks_amended.2.2.2 "u" "a b. C d" 2 (by decide)⟩

/-- C7 counterexample: with `max_words = 1` the text `"a b"` is one sentence
of two words, and the single emitted batch has 2 > 1 words. -/
theorem C7_counterexample :
    unitBatches "a b" 1 = ["a b".data] ∧ "a b".data ∈ unitBatches "a b" 1 ∧
    wordCount "a b".data = 2 ∧ 1 < 2 :=
  ⟨by decide, by decide, by decide, by decide⟩

/-- C7 (amended): every batch emitted by the greedy sentence packing either
contains at most `max_words` words, or is (the stripped text of) one single
sentence of the unit whose own word count already exceeds `max_words`. -/
theorem C7_batch_budget_amended (content : String) (maxW : Nat) :
    ∀ b ∈ unitBatches content maxW,
      wordCount b ≤ maxW ∨
      ∃ s ∈ sentGo [] [] (stripL content.data), b = stripL s ∧ maxW < wordCount s := by
  intro b hb
  exact packGo_budget maxW (sentGo [] [] (stripL content.data))
    (sentGo [] [] (stripL content.data)) [] 0 rfl (fun x hx => hx)
    (fun x hx => absurd hx (List.not_mem_nil x)) (Or.inl rfl) b hb

/-- Witness for C7 at the over-long single sentence `"a b"`, budget 1. -/
theorem C7_witness :
    "a b".data ∈ unitBatches "a b" 1 ∧
    (wordCount "a b".data ≤ 1 ∨
     ∃ s ∈ sentGo [] [] (stripL "a b".data),
       "a b".data = stripL s ∧ 1 < wordCount s) :=
  ⟨by decide, C7_batch_budget_amended "a b" 1 "a b".data (by decide)⟩

/-- C8: `run_batch` skips exactly the documents whose final artifact (the
audiobook narration file) already exists, unless `force`; every document
whose final artifact does not exist is processed; over `[doc1, doc2]` with
doc1's artifact present, only doc2 is processed unless `force = true`. -/
theorem C8_run_batch_document_skip (root lang : String) (ex : String → Bool)
    (force : Bool) :
    (∀ files : List String, runBatch root lang ex force files
        = files.filter (fun f => !(ex (narrationPath root lang f) && !force))) ∧
    (∀ (files : List String) (f : String),
        f ∈ runBatch root lang ex force files
          ↔ f ∈ files ∧ (force = true ∨ ex (narrationPath root lang f) = false)) ∧
    runBatch "p" "en" exArtifact false ["doc1_ocr.txt", "doc2_ocr.txt"]
      = ["doc2_ocr.txt"] ∧
    runBatch "p" "en" exArtifact true ["doc1_ocr.txt", "doc2_ocr.txt"]
      = ["doc1_ocr.txt", "doc2_ocr.txt"] := by
  have hfil : ∀ files : List String, runBatch root lang ex force files
      = files.filter (fun f => !(ex (narrationPath root lang f) && !force)) := by
    intro files
    induction files with
    | nil => rfl
    | cons f rest ih =>
      by_cases h : (ex (narrationPath root lang f) && !force) = true
      · rw [runBatch, if_pos h, ih, List.filter_cons]
        have hb : (!(ex (narrationPath root lang f) && !force)) = false := by
          rw [h]; rfl
        rw [hb]
        simp
      · rw [runBatch, if_neg h, ih, List.filter_cons]
        have hb : (!(ex (narrationPath root lang f) && !force)) = true := by
          rw [Bool.not_eq_true] at h
          rw [h]; rfl
        rw [hb]
        simp
  refine ⟨hfil, ?_, by decide, by decide⟩
  intro files f
  rw [hfil files]
  rw [List.mem_filter]
  constructor
  · intro ⟨h1, h2⟩
    refine ⟨h1, ?_⟩
    cases force with
    | true => exact Or.inl rfl
    | false =>
      right
      cases hex : ex (narrationPath root lang f) with
      | false => rfl
      | true => rw [hex] at h2; simp at h2
  · intro ⟨h1, h2⟩
    refine ⟨h1, ?_⟩
    rcases h2 with h2 | h2
    · rw [h2]; simp
    · rw [h2]; simp

theorem pollF_some (status : Nat → String) : ∀ (n i : Nat) (acc : List Nat)
    (s : String) (k : Nat) (sl : List Nat),
    pollF status n i acc = some (s, k, sl) →
    pollyTerminal s = true ∧ s = status k ∧ i ≤ k ∧
    (∀ j, i ≤ j → j < k → pollyTerminal (status j) = false) ∧
    sl = acc ++ List.replicate (k - i) 5 := by
  intro n
  induction n with
  | zero => intro i acc s k sl h; simp [pollF] at h
  | succ n ih =>
    intro i acc s k sl h
    rw [pollF] at h
    by_cases ht : pollyTerminal (status i) = true
    · rw [if_pos ht] at h
      simp only [Option.some.injEq, Prod.mk.injEq] at h
      obtain ⟨h1, h2, h3⟩ := h
      refine ⟨by rw [← h1]; exact ht, ?_, ?_, ?_, ?_⟩
      · rw [← h2, ← h1]
      · omega
      · intro j hj1 hj2; omega
      · rw [← h3, ← h2]
        simp
    · rw [if_neg ht] at h
      obtain ⟨g1, g2, g3, g4, g5⟩ := ih (i + 1) (acc ++ [5]) s k sl h
      refine ⟨g1, g2, by omega, ?_, ?_⟩
      · intro j hj1 hj2
        rcases Nat.eq_or_lt_of_le hj1 with he | hl
        · rw [← he]
          simp only [Bool.not_eq_true] at ht
          exact ht
        · exact g4 j hl hj2
      · rw [g5, List.append_assoc]
        have hrep : ([5] : List Nat) ++ List.replicate (k - (i + 1)) 5
            = List.replicate (k - i) 5 := by
          have h5 : ([5] : List Nat) = List.replicate 1 5 := rfl
          rw [h5, ← List.replicate_add]
          have h6 : 1 + (k - (i + 1)) = k - i := by omega
          rw [h6]
        rw [hrep]

theorem pollF_stuck (status : Nat → String) : ∀ (n i : Nat) (acc : List Nat),
    (∀ j, i ≤ j → j < i + n → pollyTerminal (status j) = false) →
    pollF status n i acc = none := by
  intro n
  induction n with
  | zero => intro i acc _; rfl
  | succ n ih =>
    intro i acc h
    rw [pollF]
    have h0 : pollyTerminal (status i) = false := h i le_rfl (by omega)
    rw [h0]
    simp only [Bool.false_eq_true, if_false]
    apply ih
    intro j hj1 hj2
    exact h j (by omega) (by omega)

/-- C9: the Polly poll loop sleeps a fixed 5 seconds per non-terminal poll
(no backoff), has no attempt cap or timeout — for every bound n, if all n
statuses are non-terminal the loop has not exited — exits exactly at the
first terminal status, returns normally (fetching the result) only on
"completed", and raises on "failed". -/
theorem C9_polly_poll_loop (status : Nat → String) :
    (∀ (n : Nat) (s : String) (k : Nat) (sl : List Nat),
        pollF status n 0 [] = some (s, k, sl) →
        (s = "completed" ∨ s = "failed") ∧ s = status k ∧
        (∀ j, j < k → pollyTerminal (status j) = false) ∧
        sl = List.replicate k 5) ∧
    (∀ n : Nat, (∀ j, j < n → pollyTerminal (status j) = false) →
        pollF status n 0 [] = none) ∧
    synthOutcome "completed" = .ok () ∧
    (∀ s, s ≠ "completed" → synthOutcome s = .error "Polly synthesis failed") := by
  refine ⟨?_, ?_, rfl, ?_⟩
  · intro n s k sl h
    obtain ⟨g1, g2, _, g4, g5⟩ := pollF_some status n 0 [] s k sl h
    refine ⟨?_, g2, ?_, ?_⟩
    · simp only [pollyTerminal, Bool.or_eq_true, decide_eq_true_eq] at g1
      exact g1
    · intro j hj
      exact g4 j (Nat.zero_le j) hj
    · rw [g5]
      simp
  · intro n h
    apply pollF_stuck
    intro j _ hj2
    exact h j (by omega)
  · intro s hs
    simp [synthOutcome, hs]

/-- Witness for C9: statuses inProgress, inProgress, completed give two
5-second sleeps and a normal return; three scheduled statuses keep looping. -/
theorem C9_witness :
    pollF exStatus 10 0 [] = some ("completed", 2, [5, 5]) ∧
    (("completed" : String) = "completed" ∨ ("completed" : String) = "failed") ∧
    ("completed" : String) = exStatus 2 ∧
    (∀ j, j < 2 → pollyTerminal (exStatus j) = false) ∧
    ([5, 5] : List Nat) = List.replicate 2 5 ∧
    (∀ j, j < 3 → pollyTerminal (exStatusStuck j) = false) ∧
    pollF exStatusStuck 3 0 [] = none :=
  ⟨by decide,
   ((C9_polly_poll_loop exStatus).1 10 "completed" 2 [5, 5] (by decide)).1,
   ((C9_polly_poll_loop exStatus).1 10 "completed" 2 [5, 5] (by decide)).2.1,
   ((C9_polly_poll_loop exStatus).1 10 "completed" 2 [5, 5] (by decide)).2.2.1,
   ((C9_polly_poll_loop exStatus).1 10 "completed" 2 [5, 5] (by decide)).2.2.2,
   by decide,
   (C9_polly_poll_loop exStatusStuck).2.1 3 (by decide)⟩

end OcrPipeline
